import Mathlib

/-!
Verification of the blockrouter packet pipeline core.

This file gives a shallow embedding of the repository's chunked-buffer model
(`Multibytes` / `Cursor`, src/cursor.rs), the streaming varint parser
(src/parser.rs), the framer state machine (src/framer.rs), the packet
inflater (src/inflater.rs), the cryptor wrapper (src/crypto.rs), the slab
allocator's slice geometry (src/mempool.rs) and the framed ring arena
(src/buffer.rs), and proves the stated properties about them.

Bytes are modelled as natural numbers (a byte read from the wire is < 256,
but none of the embedded operations depend on that bound), buffers as lists of
bytes, and the `VecDeque` of buffers inside `Multibytes` as a list of
buffers.  Machine integers (`i32`) are modelled as mathematical integers
with explicit reduction modulo `2 ^ 32` where the code's shifts can
overflow the 32-bit width.
-/

namespace Blockrouter

/-- A logical byte stream assembled from a sequence of buffers.
Mirrors `Multibytes { b: VecDeque<T> }` from src/cursor.rs, with each
buffer `T` modelled as a `List Nat` of its remaining bytes. -/
structure Multibytes where
  b : List (List Nat)
deriving DecidableEq

/-- A `(page index, byte offset)` position into a `Multibytes`.
Mirrors `Cursor { of: usize, i: usize }` from src/cursor.rs. -/
structure Cursor where
  of : Nat
  i : Nat
deriving DecidableEq

/-- The concatenated bytes of a `Multibytes`. -/
def Multibytes.bytes (m : Multibytes) : List Nat :=
  m.b.flatten

/-- The total byte length of a `Multibytes` (the sum of the lengths of its
buffers, which is what the Rust side computes by folding `remaining()`). -/
def Multibytes.total_len (m : Multibytes) : Nat :=
  (m.b.map List.length).sum

/-- `Multibytes::cursor`: a cursor at the logical origin. -/
def Multibytes.cursor (_ : Multibytes) : Cursor :=
  ⟨0, 0⟩

/-- `Multibytes::append`: push a buffer at the tail (`push_back`). -/
def Multibytes.append (m : Multibytes) (buf : List Nat) : Multibytes :=
  ⟨m.b ++ [buf]⟩

/-- The loop body of `Cursor::true_up` from src/cursor.rs.  The Rust loop
repeatedly reads `b.get(of)`; iterating `of` upward over the pages of `b`
is the same as walking the suffix `b.drop of`, which is what this
structurally recursive version does.  `total` is the page count `b.len()`
used by the end-of-stream check in the `None` arm. -/
def trueUpGo (total : Nat) : List (List Nat) → Nat → Nat → Cursor × Bool
  | [], of, i => (⟨of, i⟩, of == total && i == 0)
  | page :: rest, of, i =>
    if page.length ≤ i then trueUpGo total rest (of + 1) (i - page.length)
    else (⟨of, i⟩, true)

/-- `Cursor::true_up`: advance `of` past exhausted pages; returns the
re-trued cursor and whether the resulting position is valid (in range or
exactly the end-of-stream sentinel). -/
def Cursor.true_up (c : Cursor) (m : Multibytes) : Cursor × Bool :=
  trueUpGo m.b.length (m.b.drop c.of) c.of c.i

/-- `Cursor::advance`: add `n` to the byte offset, then re-true. -/
def Cursor.advance (c : Cursor) (m : Multibytes) (n : Nat) : Cursor × Bool :=
  Cursor.true_up ⟨c.of, c.i + n⟩ m

/-- `Cursor::remaining`: the summed length of the pages from the current
page onward, minus the byte offset (clamped at zero, as in the source). -/
def Cursor.remaining (c : Cursor) (m : Multibytes) : Nat :=
  let blen := ((m.b.drop c.of).map List.length).sum
  if blen ≤ c.i then 0 else blen - c.i

/-- The loop of `Cursor::has_atleast`: walk the pages, short-circuiting as
soon as one page covers what is `left` to find. -/
def hasAtleastLoop : List (List Nat) → Nat → Bool
  | [], left => left == 0
  | buf :: rest, left =>
    if left ≤ buf.length then true else hasAtleastLoop rest (left - buf.length)

/-- `Cursor::has_atleast`: short-circuiting check that at least `len`
bytes follow the cursor. -/
def Cursor.has_atleast (c : Cursor) (m : Multibytes) (len : Nat) : Bool :=
  hasAtleastLoop (m.b.drop c.of) (len + c.i)

/-- `Cursor::run_off_end`: how many bytes past the end of the stream the
cursor points, judged from its referenced page. -/
def Cursor.run_off_end (c : Cursor) (m : Multibytes) : Nat :=
  match m.b[c.of]? with
  | some p => if p.length < c.i then c.i - p.length else 0
  | none => c.i

/-- The trued-up predicate from the specification: the byte offset is
strictly inside the referenced page, or the cursor is the end-of-stream
sentinel (page index equal to the page count, offset zero). -/
def Cursor.truedUp (c : Cursor) (m : Multibytes) : Bool :=
  match m.b[c.of]? with
  | some page => c.i < page.length
  | none => c.of == m.b.length && c.i == 0

/-- `Multibytes::split_to` from src/cursor.rs.  Removes all bytes strictly
before the cursor and returns them as a new `Multibytes` together with the
mutated remainder.  The result is `none` exactly on the function's panic
branches: the `must_be_some!` panic when `pop_front` runs dry before `c.of`
pages were popped, and the explicit `Cursor steps into a page which does
not exist` panic when `c.i > 0` but no page is left.  A buffer-level
`x.split_to(c.i)` is `List.take` / `List.drop` at `c.i`. -/
def Multibytes.split_to (m : Multibytes) (c : Cursor) :
    Option (Multibytes × Multibytes) :=
  if c.i = 0 ∧ c.of = 0 then some (⟨[]⟩, m)
  else if m.b.length < c.of then none
  else if 0 < c.i then
    match m.b.drop c.of with
    | x :: xs => some (⟨m.b.take c.of ++ [x.take c.i]⟩, ⟨x.drop c.i :: xs⟩)
    | [] => none
  else some (⟨m.b.take c.of⟩, ⟨m.b.drop c.of⟩)

/-- The five-buffer stream built by the repository's own cursor tests
(`make_test_mb` in src/cursor.rs). -/
def mbTest : Multibytes := ⟨[[1, 2, 3, 4], [5, 6], [], [7, 8, 9], [10]]⟩

/-- Result of the streaming varint parser of src/parser.rs, over an input
stream of type `α`: `nom::Err::Incomplete`, the
`VarintParseFail::VarintExceededShift(max_shift)` error, or success with
the remaining stream and the decoded `i32` value. -/
inductive VarintResult (α : Type) where
  | incomplete : VarintResult α
  | exceededShift : Nat → VarintResult α
  | ok : α → Int → VarintResult α
deriving DecidableEq

/-- Reinterpret an accumulator below `2 ^ 32` as a two's-complement
signed 32-bit value. -/
def i32ofNat (n : Nat) : Int :=
  if n < 2 ^ 31 then (n : Int) else (n : Int) - 2 ^ 32

/-- The `varint_decode!` loop of src/parser.rs instantiated at `i32`
(`max_shift = 32`), reading from a byte list (the `Bytes` instance of
`SliceCursor`).  `i` is the current shift and `result` the accumulator;
`result |= ((read & 0x7f) as i32) << i` is modelled by reducing the
shifted value modulo `2 ^ 32` (the bits an `i32` shift discards) before
OR-ing it in. -/
def varintLoop : List Nat → Nat → Nat → VarintResult (List Nat)
  | [], _, _ => .incomplete
  | read :: rest, i, result =>
    let result' := result ||| ((read &&& 127) <<< i) % 2 ^ 32
    if read &&& 128 = 0 then .ok rest (i32ofNat result')
    else if 32 < i + 7 then .exceededShift 32
    else varintLoop rest (i + 7) result'

/-- `parser::varint` on a byte list. -/
def varint (b : List Nat) : VarintResult (List Nat) :=
  varintLoop b 0 0

/-- The value accumulated by a successful varint parse: the low 7 bits of
each byte, shifted by 7 per position (with 32-bit truncation) and OR-ed
together. -/
def varintAccum : List Nat → Nat → Nat
  | [], _ => 0
  | b :: rest, i => ((b &&& 127) <<< i) % 2 ^ 32 ||| varintAccum rest (i + 7)

/-- One `get_u8` on a `MultibytesView` / `IndexedMultibytes`: read
`bytes()[0]` (the byte of the referenced page at the cursor offset) and
advance the cursor by one. -/
def viewReadU8 (m : Multibytes) (c : Cursor) : Nat :=
  (m.b[c.of]?.getD []).getD c.i 0

/-- The `varint_decode!` loop instantiated at `i32` reading through a
cursor over a `Multibytes` (the `SliceCursor` instances of
`MultibytesView` and `IndexedMultibytes`): `has_atleast(1)` guards each
step, `get_u8` reads a byte and advances the cursor. -/
def varintMBLoop (m : Multibytes) (c : Cursor) (i result : Nat) :
    VarintResult Cursor :=
  if c.has_atleast m 1 then
    let read := viewReadU8 m c
    let c' := (c.advance m 1).1
    let result' := result ||| ((read &&& 127) <<< i) % 2 ^ 32
    if read &&& 128 = 0 then .ok c' (i32ofNat result')
    else if h : 32 < i + 7 then .exceededShift 32
    else varintMBLoop m c' (i + 7) result'
  else .incomplete
termination_by 33 - i
decreasing_by omega

/-- `parser::varint` run on a view of a `Multibytes` starting at `c`. -/
def varintMB (m : Multibytes) (c : Cursor) : VarintResult Cursor :=
  varintMBLoop m c 0 0

/-- `FramerState` from src/framer.rs. -/
inductive FramerState where
  | waitingForHeader : FramerState
  | waitingForTailingData : Cursor → Cursor → FramerState
deriving DecidableEq

/-- The outcome of one `FrameIter::next` step: a produced
`Frame { packet, data_start }`, one of the `FrameError` variants, or the
(unreachable for trued cursors) panic inside `partition_before` /
`split_to`. -/
inductive FrameResult where
  | frame : Multibytes → Cursor → FrameResult
  | waitingForHeader : FrameResult
  | waitingForData : Nat → FrameResult
  | decodeError : FrameResult
  | panicked : FrameResult
deriving DecidableEq

/-- `Framer` from src/framer.rs: the cap on frame length, the accumulated
`Multibytes` ring, and the state machine state. -/
structure Framer where
  max_frame_size : Nat
  ring : Multibytes
  state : FramerState
deriving DecidableEq

/-- `Framer::new`: empty ring (the capacity hint only preallocates),
waiting for a header. -/
def Framer.new (max_frame_size : Nat) (_buffer_size : Nat) : Framer :=
  ⟨max_frame_size, ⟨[]⟩, .waitingForHeader⟩

/-- `Framer::frame`: append the incoming buffer to the ring (the returned
`FrameIter` just borrows the framer). -/
def Framer.frame (f : Framer) (b : List Nat) : Framer :=
  { f with ring := f.ring.append b }

/-- `FrameIter::next` from src/framer.rs.  In `WaitingForHeader`, run the
varint parser on a view of the ring; on success reject lengths that are
negative or exceed `max_frame_size` with `DecodeError`, otherwise advance
a cursor by the length and either split off the frame or record the
tail-waiting state.  `partition_before` is the `split_to` of the ring. -/
def FrameIter.next (f : Framer) : Framer × FrameResult :=
  match f.state with
  | .waitingForHeader =>
    match varintMB f.ring ⟨0, 0⟩ with
    | .ok c len =>
      if len < 0 ∨ f.max_frame_size < len.toNat then (f, .decodeError)
      else
        let data_start := c
        let adv := data_start.advance f.ring len.toNat
        if adv.2 then
          match f.ring.split_to adv.1 with
          | some (packet, rest) => ({ f with ring := rest }, .frame packet data_start)
          | none => (f, .panicked)
        else
          ({ f with state := .waitingForTailingData data_start adv.1 },
            .waitingForData (adv.1.run_off_end f.ring))
    | .incomplete => (f, .waitingForHeader)
    | .exceededShift _ => (f, .decodeError)
  | .waitingForTailingData data_start data_end =>
    let t := data_end.true_up f.ring
    if t.2 then
      match f.ring.split_to t.1 with
      | some (packet, rest) =>
        ({ f with ring := rest, state := .waitingForHeader }, .frame packet data_start)
      | none => (f, .panicked)
    else
      ({ f with state := .waitingForTailingData data_start t.1 },
        .waitingForData (t.1.run_off_end f.ring))

/-- `InflaterError` from src/inflater.rs (the zlib error payload is not
needed by any claim and is collapsed). -/
inductive InflaterError where
  | compressionSizeDecodeFail : InflaterError
  | smallCompression : InflaterError
  | zlibError : InflaterError
deriving DecidableEq

/-- `DataBacking` from src/inflater.rs. -/
inductive DataBacking where
  | cursor : Cursor → DataBacking
  | multibytes : Multibytes → DataBacking
deriving DecidableEq

/-- `Packet` from src/inflater.rs. -/
structure Packet where
  h : Multibytes
  d : DataBacking
deriving DecidableEq

/-- The outcome of `PacketInflater::inflate`: a packet, an error, or the
(unreachable) panic inside `split_to`. -/
inductive InflateResult where
  | ok : Packet → InflateResult
  | error : InflaterError → InflateResult
  | panicked : InflateResult
deriving DecidableEq

/-- `PacketInflater::inflate` from src/inflater.rs on a frame
`{ packet, data_start }`.  `threshold = none` models a `PacketInflater`
whose compression is disabled; `zprocess` stands for
`compress::Inflater::process`, the multi-buffer zlib driver whose body is
an FFI call into zlib and is therefore kept abstract. -/
def PacketInflater.inflate (zprocess : Multibytes → Except Unit Multibytes)
    (threshold : Option Int) (packet : Multibytes) (data_start : Cursor) :
    InflateResult :=
  match threshold with
  | some t =>
    match varintMB packet data_start with
    | .ok c decompressed_size =>
      if decompressed_size = 0 then .ok ⟨packet, .cursor c⟩
      else if decompressed_size < t then .error .smallCompression
      else
        match packet.split_to c with
        | some (header, data) =>
          match zprocess data with
          | .ok inflated => .ok ⟨header, .multibytes inflated⟩
          | .error _ => .error .zlibError
        | none => .panicked
    | _ => .error .compressionSizeDecodeFail
  | none => .ok ⟨packet, .cursor data_start⟩

/-- `CryptMode` from src/mbedtls.rs. -/
inductive CryptMode where
  | encrypt : CryptMode
  | decrypt : CryptMode
deriving DecidableEq

/-- `Cryptor` from src/crypto.rs: an optional AES-CFB8 context (present
only after `start_crypto`) and the crypt direction.  The context is
modelled by the 16-byte key it was built from. -/
structure Cryptor where
  c : Option (List Nat)
  mode : CryptMode
deriving DecidableEq

/-- `Cryptor::new_encrypt`. -/
def Cryptor.new_encrypt : Cryptor := ⟨none, .encrypt⟩

/-- `Cryptor::new_decrypt`. -/
def Cryptor.new_decrypt : Cryptor := ⟨none, .decrypt⟩

/-- `Cryptor::process`: if a context is installed, transform the data
through the AES-CFB8 primitive (`aes`, kept abstract as it is an FFI call
into mbedtls); otherwise leave the data untouched. -/
def Cryptor.process (aes : List Nat → CryptMode → List Nat → List Nat)
    (cr : Cryptor) (data : List Nat) : List Nat :=
  match cr.c with
  | some key => aes key cr.mode data
  | none => data

/-- `Cryptor::start_crypto`. -/
def Cryptor.start_crypto (cr : Cryptor) (key : List Nat) : Cryptor :=
  { cr with c := some key }

/-- `GlobalMemPoolSettings` from src/mempool.rs. -/
structure PoolSettings where
  buf_size : Nat
  tls_entries : Nat
  page_entries : Nat
  concurrent_allocation_limit : Nat
deriving DecidableEq

/-- `Slice` from src/mempool.rs: a `(ptr, len)` window into an mmap'd
page, with `ptr` modelled as the byte offset from the page base. -/
structure Slice where
  ptr : Nat
  len : Nat
deriving DecidableEq

/-- `Part` from src/mempool.rs: the owning `SliceRef`'s slice plus the
`(ptr, len)` data window the Part exposes. -/
structure Part where
  b : Slice
  data : Slice
deriving DecidableEq

/-- `Part::new`: copy the parent slice's window into `data`. -/
def Part.new (parent : Slice) : Part :=
  ⟨parent, parent⟩

/-- The slices carved out of one page by
`GlobalMemPool::allocate_global`: slice `itr` starts at
`itr << buf_size` and spans `entry_size = 1 << buf_size` bytes (index 0
is the returned `first_slice`, indices `1..page_entries` are pushed onto
the global queue). -/
def allocateGlobalSlices (s : PoolSettings) : List Slice :=
  (List.range s.page_entries).map
    (fun itr => ⟨itr <<< s.buf_size, 1 <<< s.buf_size⟩)

/-- `FrameHeader` from src/buffer.rs.  It derives `Copy`. -/
structure FrameHeader where
  next : Nat
  is_live : Bool
deriving DecidableEq

/-- `RingElement` from src/buffer.rs (the union of a frame header and a
user element, made a sum since the embedding tracks which member is
initialized). -/
inductive RingElement (T : Type) where
  | header : FrameHeader → RingElement T
  | element : T → RingElement T
deriving DecidableEq

/-- `FramedRing` from src/buffer.rs, with the backing buffer modelled by
absolute index: slot `j` of `ring` is what the Rust code stores at
physical index `j & mask`.  The doubling growth path copies the live
range so that absolute indices are preserved (the code's own comment:
"Indexes remain valid because the mask changes but absolute indices are
preserved"), so growth leaves this view of the storage unchanged except
for `ring_size_2`. -/
structure FramedRing (T : Type) where
  ring : Nat → Option (RingElement T)
  base : Nat
  head : Nat
  ring_size_2 : Nat

/-- `FramedRing::append_to_ring`: write the element at the old head,
advance the head, and double `ring_size_2` when the ring just became
full (`base & mask == head & mask`). -/
def FramedRing.append_to_ring {T : Type} (f : FramedRing T)
    (re : RingElement T) : FramedRing T :=
  let len := 1 <<< f.ring_size_2
  let mask := len - 1
  let old_head := f.head
  let head := old_head + 1
  let base_i := f.base &&& mask
  let head_i := head &&& mask
  { ring := fun j => if j = old_head then some re else f.ring j
    base := f.base
    head := head
    ring_size_2 := if base_i = head_i then f.ring_size_2 + 1 else f.ring_size_2 }

/-- The `(start, live_at)` pair carried by `RingFrame`. -/
structure RingFrameData where
  start : Nat
  live_at : Nat
deriving DecidableEq

/-- `FramedRing::frame`: open a new frame at `head` by writing a live
header with `next = head + 1`. -/
def FramedRing.frame {T : Type} (f : FramedRing T) :
    FramedRing T × RingFrameData :=
  let start := f.head
  (f.append_to_ring (.header ⟨start + 1, true⟩), ⟨start, start + 1⟩)

/-- `RingFrameMut::append` from src/buffer.rs.  The element is written at
the head.  The Rust source then does
`let mut header = self.f.ring.get_mut(self.f.start).header; header.next += 1;`
— but `FrameHeader` derives `Copy`, so that `let` binds a copy of the
header read out of the union and the increment mutates only the local
copy: the header stored in the ring is left unchanged.  The embedding
reproduces exactly that: the stored ring is the one returned by
`append_to_ring` alone. -/
def RingFrameMut.append {T : Type} (f : FramedRing T) (fr : RingFrameData)
    (element : T) : FramedRing T :=
  let f1 := f.append_to_ring (.element element)
  let header :=
    match f1.ring fr.start with
    | some (.header h) => h
    | _ => FrameHeader.mk 0 false
  let _incremented_copy := { header with next := header.next + 1 }
  f1

/-- `RingFrame::header().next`: the `next` field of the header slot this
frame starts at (reading the union's header member). -/
def RingFrame.headerNext {T : Type} (f : FramedRing T)
    (fr : RingFrameData) : Nat :=
  match f.ring fr.start with
  | some (.header h) => h.next
  | _ => 0

/-- `RingFrame::iter` collected into a list: the element member of every
slot in `[start + 1, header.next)`. -/
def RingFrame.iterList {T : Type} [Inhabited T] (f : FramedRing T)
    (fr : RingFrameData) : List T :=
  (List.range' (fr.start + 1) (RingFrame.headerNext f fr - (fr.start + 1))).map
    (fun j =>
      match f.ring j with
      | some (.element t) => t
      | _ => default)

/-- A fresh four-slot ring (`ring_size_2 = 2`) of `Nat` elements with
nothing written yet. -/
def ringScenario0 : FramedRing Nat := ⟨fun _ => none, 0, 0, 2⟩

/-- The ring after `frame()`: a live header `next = 1` at slot 0. -/
def ringScenario1 : FramedRing Nat × RingFrameData := ringScenario0.frame

/-- The ring after appending the element 42 to the open frame. -/
def ringScenario2 : FramedRing Nat :=
  RingFrameMut.append ringScenario1.1 ringScenario1.2 42

lemma total_len_eq_length_bytes (m : Multibytes) :
    m.total_len = m.bytes.length := by
  simp [Multibytes.total_len, Multibytes.bytes, List.length_flatten]

/-- Re-truing a cursor never changes the number of bytes it has left:
each step of the loop trades one exhausted page against its length. -/
lemma remaining_trueUpGo (m : Multibytes) (pages : List (List Nat)) :
    ∀ of i, pages = m.b.drop of →
      ((trueUpGo m.b.length pages of i).1).remaining m =
        Cursor.remaining ⟨of, i⟩ m := by
  induction pages with
  | nil => intro of i _; rfl
  | cons page rest ih =>
    intro of i hp
    have hrest : m.b.drop (of + 1) = rest := by
      have h1 : List.drop 1 (List.drop of m.b) = List.drop (of + 1) m.b :=
        List.drop_drop 1 of m.b
      rw [← h1, ← hp]
      rfl
    unfold trueUpGo
    by_cases hle : page.length ≤ i
    · rw [if_pos hle, ih (of + 1) (i - page.length) hrest.symm]
      show (if ((m.b.drop (of + 1)).map List.length).sum ≤ i - page.length
              then 0
              else ((m.b.drop (of + 1)).map List.length).sum -
                (i - page.length)) =
          (if ((m.b.drop of).map List.length).sum ≤ i then 0
            else ((m.b.drop of).map List.length).sum - i)
      rw [hrest, ← hp]
      simp only [List.map_cons, List.sum_cons]
      split_ifs <;> omega
    · rw [if_neg hle]

lemma remaining_true_up (c : Cursor) (m : Multibytes) :
    ((c.true_up m).1).remaining m = c.remaining m :=
  remaining_trueUpGo m (m.b.drop c.of) c.of c.i rfl

/-- C3: advancing the origin cursor by `n ≤ total_len` leaves exactly
`total_len − n` bytes remaining. -/
theorem cursor_roundtrip (m : Multibytes) (n : Nat) (h : n ≤ m.total_len) :
    ((m.cursor.advance m n).1).remaining m = m.total_len - n := by
  show ((Cursor.true_up ⟨0, 0 + n⟩ m).1).remaining m = _
  rw [remaining_true_up]
  unfold Cursor.remaining Multibytes.total_len
  unfold Multibytes.total_len at h
  simp only [List.drop_zero]
  split <;> omega

theorem cursor_roundtrip_witness :
    (((⟨[[1, 2], [3]]⟩ : Multibytes).cursor.advance ⟨[[1, 2], [3]]⟩ 2).1).remaining
        ⟨[[1, 2], [3]]⟩ =
      Multibytes.total_len ⟨[[1, 2], [3]]⟩ - 2 :=
  cursor_roundtrip ⟨[[1, 2], [3]]⟩ 2 (by decide)

/-- The `has_atleast` loop succeeds exactly when the pages it walks hold
at least `left` bytes in total. -/
lemma hasAtleastLoop_eq (pages : List (List Nat)) :
    ∀ left, hasAtleastLoop pages left = true ↔
      left ≤ (pages.map List.length).sum := by
  induction pages with
  | nil =>
    intro left
    unfold hasAtleastLoop
    simp only [List.map_nil, List.sum_nil, beq_iff_eq]
    omega
  | cons buf rest ih =>
    intro left
    unfold hasAtleastLoop
    simp only [List.map_cons, List.sum_cons]
    by_cases hle : left ≤ buf.length
    · rw [if_pos hle]
      simp only [eq_self_iff_true, true_iff]
      omega
    · rw [if_neg hle, ih]
      omega

/-- C8 (amended): for a trued-up cursor, `has_atleast n` agrees with
`remaining ≥ n`. -/
theorem has_atleast_iff_remaining (m : Multibytes) (c : Cursor) (n : Nat)
    (h : c.truedUp m = true) :
    (c.has_atleast m n = true) ↔ n ≤ c.remaining m := by
  unfold Cursor.has_atleast Cursor.remaining
  rw [hasAtleastLoop_eq]
  unfold Cursor.truedUp at h
  rcases hh : m.b[c.of]? with _ | page
  · rw [hh] at h
    simp only [Bool.and_eq_true, beq_iff_eq] at h
    obtain ⟨h1, h2⟩ := h
    have hd : m.b.drop c.of = [] := by rw [h1]; exact List.drop_length m.b
    rw [hd]
    simp only [List.map_nil, List.sum_nil]
    split <;> omega
  · rw [hh] at h
    simp only [decide_eq_true_eq] at h
    obtain ⟨hofl, hpe⟩ := List.getElem?_eq_some.mp hh
    rw [List.drop_eq_getElem_cons hofl, hpe]
    simp only [List.map_cons, List.sum_cons]
    split <;> omega

/-- C8 counterexample: the cursor over-advanced one byte past the end of
the test stream (as in the repository's `cursor_has_atleast` test) has
`has_atleast 0 = false` even though `remaining = 0 ≥ 0`. -/
theorem has_atleast_iff_counterexample :
    ¬ ((Cursor.has_atleast
          ((((mbTest.cursor.advance mbTest 3).1).advance mbTest 7).1.advance
              mbTest 1).1 mbTest 0 = true) ↔
        0 ≤ Cursor.remaining
          ((((mbTest.cursor.advance mbTest 3).1).advance mbTest 7).1.advance
              mbTest 1).1 mbTest) := by
  decide

/-- For a trued-up cursor, `split_to` reaches neither panic branch, and
the split conserves the bytes and the total length. -/
lemma split_to_spec (m : Multibytes) (c : Cursor) (h : c.truedUp m = true) :
    ∃ l r, m.split_to c = some (l, r) ∧
      l.bytes ++ r.bytes = m.bytes ∧
      l.total_len + r.total_len = m.total_len := by
  have hof : c.of ≤ m.b.length := by
    unfold Cursor.truedUp at h
    rcases hh : m.b[c.of]? with _ | page
    · rw [hh] at h
      simp only [Bool.and_eq_true, beq_iff_eq] at h
      omega
    · obtain ⟨hofl, -⟩ := List.getElem?_eq_some.mp hh
      omega
  unfold Multibytes.split_to
  by_cases h0 : c.i = 0 ∧ c.of = 0
  · rw [if_pos h0]
    exact ⟨⟨[]⟩, m, rfl, by simp [Multibytes.bytes], by simp [Multibytes.total_len]⟩
  · rw [if_neg h0, if_neg (by omega)]
    by_cases hi : 0 < c.i
    · have hpage : ∃ page, m.b[c.of]? = some page ∧ c.i < page.length := by
        unfold Cursor.truedUp at h
        rcases hh : m.b[c.of]? with _ | page
        · rw [hh] at h
          simp only [Bool.and_eq_true, beq_iff_eq] at h
          omega
        · rw [hh] at h
          simp only [decide_eq_true_eq] at h
          exact ⟨page, rfl, h⟩
      obtain ⟨page, hh, -⟩ := hpage
      obtain ⟨hofl, hpe⟩ := List.getElem?_eq_some.mp hh
      have hd : m.b.drop c.of = page :: m.b.drop (c.of + 1) := by
        rw [List.drop_eq_getElem_cons hofl, hpe]
      rw [if_pos hi, hd]
      refine ⟨_, _, rfl, ?_, ?_⟩
      · show (m.b.take c.of ++ [page.take c.i]).flatten ++
            (page.drop c.i :: m.b.drop (c.of + 1)).flatten = m.bytes
        unfold Multibytes.bytes
        conv_rhs => rw [← List.take_append_drop c.of m.b, hd]
        simp only [List.flatten_append, List.flatten_cons, List.flatten_nil,
          List.append_nil, List.append_assoc]
        rw [← List.append_assoc (page.take c.i), List.take_append_drop]
      · show Multibytes.total_len ⟨m.b.take c.of ++ [page.take c.i]⟩ +
            Multibytes.total_len ⟨page.drop c.i :: m.b.drop (c.of + 1)⟩ =
          m.total_len
        rw [total_len_eq_length_bytes, total_len_eq_length_bytes,
          total_len_eq_length_bytes]
        unfold Multibytes.bytes
        conv_rhs => rw [← List.take_append_drop c.of m.b, hd]
        simp [List.flatten_append, List.append_assoc]
        omega
    · rw [if_neg hi]
      refine ⟨_, _, rfl, ?_, ?_⟩
      · show (m.b.take c.of).flatten ++ (m.b.drop c.of).flatten = m.bytes
        unfold Multibytes.bytes
        rw [← List.flatten_append, List.take_append_drop]
      · show Multibytes.total_len ⟨m.b.take c.of⟩ +
            Multibytes.total_len ⟨m.b.drop c.of⟩ = m.total_len
        rw [total_len_eq_length_bytes, total_len_eq_length_bytes,
          total_len_eq_length_bytes]
        unfold Multibytes.bytes
        rw [← List.length_append, ← List.flatten_append, List.take_append_drop]

/-- C2: splitting at a trued-up cursor conserves both the byte sequence
and the total length. -/
theorem split_to_conservation (m : Multibytes) (c : Cursor)
    (h : c.truedUp m = true) :
    ∃ l r, m.split_to c = some (l, r) ∧
      l.bytes ++ r.bytes = m.bytes ∧
      l.total_len + r.total_len = m.total_len :=
  split_to_spec m c h

theorem split_to_conservation_witness :
    ∃ l r, (⟨[[1, 2, 3], [4, 5]]⟩ : Multibytes).split_to ⟨1, 1⟩ = some (l, r) ∧
      l.bytes ++ r.bytes = Multibytes.bytes ⟨[[1, 2, 3], [4, 5]]⟩ ∧
      l.total_len + r.total_len = Multibytes.total_len ⟨[[1, 2, 3], [4, 5]]⟩ :=
  split_to_conservation ⟨[[1, 2, 3], [4, 5]]⟩ ⟨1, 1⟩ (by decide)

/-- C10: on a trued-up cursor, `split_to` completes without reaching
either of its panic branches. -/
theorem split_to_no_panic (m : Multibytes) (c : Cursor)
    (h : c.truedUp m = true) :
    (m.split_to c).isSome = true := by
  obtain ⟨l, r, he, -, -⟩ := split_to_spec m c h
  rw [he]
  rfl

theorem split_to_no_panic_witness :
    ((⟨[[7], [8, 9]]⟩ : Multibytes).split_to ⟨2, 0⟩).isSome = true :=
  split_to_no_panic ⟨[[7], [8, 9]]⟩ ⟨2, 0⟩ (by decide)

theorem has_atleast_iff_remaining_witness :
    (Cursor.has_atleast ⟨0, 3⟩ mbTest 7 = true) ↔
      7 ≤ Cursor.remaining ⟨0, 3⟩ mbTest :=
  has_atleast_iff_remaining mbTest ⟨0, 3⟩ 7 (by decide)

/-- If every byte so far has the continuation bit and the shift budget is
not yet exhausted, the varint loop runs off the end of the input. -/
lemma varintLoop_incomplete (bytes : List Nat) :
    ∀ i acc, (∀ b ∈ bytes, b &&& 128 ≠ 0) → i + 7 * bytes.length ≤ 32 →
      varintLoop bytes i acc = .incomplete := by
  induction bytes with
  | nil => intro i acc _ _; rfl
  | cons b bs ih =>
    intro i acc hall hsh
    simp only [List.length_cons] at hsh
    have hb := hall b (List.mem_cons_self b bs)
    simp only [varintLoop]
    rw [if_neg hb, if_neg (show ¬ 32 < i + 7 by omega)]
    exact ih (i + 7) _ (fun x hx => hall x (List.mem_cons_of_mem _ hx)) (by omega)

/-- A terminator byte within the shift budget makes the varint loop
return the accumulated value and the rest of the input. -/
lemma varintLoop_ok (pre : List Nat) (t : Nat) (rest : List Nat) :
    ∀ i acc, (∀ b ∈ pre, b &&& 128 ≠ 0) → t &&& 128 = 0 →
      i + 7 * pre.length ≤ 32 →
      varintLoop (pre ++ t :: rest) i acc =
        .ok rest (i32ofNat (acc ||| varintAccum (pre ++ [t]) i)) := by
  induction pre with
  | nil =>
    intro i acc _ ht _
    simp only [List.nil_append, varintLoop, varintAccum]
    rw [if_pos ht]
    simp
  | cons b bs ih =>
    intro i acc hall ht hsh
    simp only [List.length_cons] at hsh
    have hb := hall b (List.mem_cons_self b bs)
    simp only [List.cons_append, varintLoop, List.append_eq]
    rw [if_neg hb, if_neg (show ¬ 32 < i + 7 by omega),
      ih (i + 7) _ (fun x hx => hall x (List.mem_cons_of_mem _ hx)) ht (by omega)]
    simp only [varintAccum]
    rw [Nat.lor_assoc]

/-- Five continuation bytes exhaust the `i32` shift budget. -/
lemma varintLoop_exceeded (pre : List Nat) :
    ∀ rest i acc, (∀ b ∈ pre, b &&& 128 ≠ 0) → 0 < pre.length →
      i + 7 * (pre.length - 1) ≤ 32 → 32 < i + 7 * pre.length →
      varintLoop (pre ++ rest) i acc = .exceededShift 32 := by
  induction pre with
  | nil =>
    intro rest i acc _ h0 _ _
    exact absurd h0 (by simp)
  | cons b bs ih =>
    intro rest i acc hall _ hlow hhigh
    simp only [List.length_cons] at hlow hhigh
    have hb := hall b (List.mem_cons_self b bs)
    simp only [List.cons_append, varintLoop]
    rw [if_neg hb]
    cases bs with
    | nil =>
      rw [if_pos (show 32 < i + 7 by simp at hhigh; omega)]
    | cons b2 bs2 =>
      rw [if_neg (show ¬ 32 < i + 7 by simp only [List.length_cons] at hlow; omega)]
      exact ih rest (i + 7) _ (fun x hx => hall x (List.mem_cons_of_mem _ hx))
        (by simp) (by simp only [List.length_cons] at *; omega)
        (by simp only [List.length_cons] at *; omega)

/-- C4: the streaming varint parser returns `Incomplete` when the input
runs out before a terminator (within the five-byte budget), returns the
OR-accumulated two's-complement value on the first byte with the high
bit clear, and returns `VarintExceededShift` once five continuation
bytes have pushed the shift past 32. -/
theorem varint_streaming_spec (bytes : List Nat) :
    ((∀ b ∈ bytes, b &&& 128 ≠ 0) → bytes.length ≤ 4 →
      varint bytes = .incomplete)
  ∧ (∀ pre t rest, bytes = pre ++ t :: rest →
      (∀ b ∈ pre, b &&& 128 ≠ 0) → t &&& 128 = 0 → pre.length ≤ 4 →
      varint bytes = .ok rest (i32ofNat (varintAccum (pre ++ [t]) 0)))
  ∧ ((∀ b ∈ bytes.take 5, b &&& 128 ≠ 0) → 5 ≤ bytes.length →
      varint bytes = .exceededShift 32) := by
  refine ⟨?_, ?_, ?_⟩
  · intro hall hlen
    exact varintLoop_incomplete bytes 0 0 hall (by omega)
  · intro pre t rest hb hpre ht hlen
    subst hb
    unfold varint
    rw [varintLoop_ok pre t rest 0 0 hpre ht (by omega)]
    simp
  · intro hall hlen
    have hlen5 : (bytes.take 5).length = 5 := by
      rw [List.length_take]
      omega
    unfold varint
    conv_lhs => rw [← List.take_append_drop 5 bytes]
    exact varintLoop_exceeded (bytes.take 5) (bytes.drop 5) 0 0 hall
      (by omega) (by rw [hlen5]; omega) (by rw [hlen5]; omega)

theorem varint_streaming_spec_witness :
    varint [0x80, 0x80] = .incomplete
  ∧ varint [0x80, 0x02] = .ok [] (i32ofNat (varintAccum ([0x80] ++ [0x02]) 0))
  ∧ varint [0x80, 0x80, 0x80, 0x80, 0x80, 0x02] = .exceededShift 32 :=
  ⟨(varint_streaming_spec [0x80, 0x80]).1 (by decide) (by decide),
   (varint_streaming_spec [0x80, 0x02]).2.1 [0x80] 0x02 [] rfl (by decide)
     (by decide) (by decide),
   (varint_streaming_spec [0x80, 0x80, 0x80, 0x80, 0x80, 0x02]).2.2
     (by decide) (by decide)⟩

/-- C1: in `WaitingForHeader`, once the length varint decodes to `len`
with `len < 0` or `len > max_frame_size`, the framer step returns
`DecodeError`. -/
theorem framer_rejects_oversize (f : Framer) (c : Cursor) (len : Int)
    (hs : f.state = .waitingForHeader)
    (hv : varintMB f.ring ⟨0, 0⟩ = .ok c len)
    (hlen : len < 0 ∨ (f.max_frame_size : Int) < len) :
    (FrameIter.next f).2 = .decodeError := by
  unfold FrameIter.next
  rw [hs, hv]
  dsimp only
  have hcond : len < 0 ∨ f.max_frame_size < len.toNat := by
    rcases hlen with h | h
    · exact Or.inl h
    · exact Or.inr (by omega)
  rw [if_pos hcond]

/-- C1 concrete scenario: `max_frame_size = 128`, push `[0x80, 0x02]`
(varint 256), step: `DecodeError`. -/
theorem framer_rejects_oversize_witness :
    (FrameIter.next ((Framer.new 128 1).frame [0x80, 0x02])).2 = .decodeError :=
  framer_rejects_oversize ((Framer.new 128 1).frame [0x80, 0x02]) ⟨1, 0⟩ 256 rfl
    (by
      simp [Framer.new, Framer.frame, Multibytes.append, varintMB, varintMBLoop,
        viewReadU8, Cursor.has_atleast, hasAtleastLoop, Cursor.advance,
        Cursor.true_up, trueUpGo, i32ofNat]
      decide)
    (Or.inr (by decide))

/-- C5 (amended): with compression enabled at threshold `t` and a
successfully decoded `decompressed_size` of `ds`, `inflate` fails with
`SmallCompression` if and only if `ds ≠ 0` and `ds < t`. -/
theorem inflate_smallCompression_iff
    (zprocess : Multibytes → Except Unit Multibytes) (t : Int)
    (packet : Multibytes) (data_start c : Cursor) (ds : Int)
    (hv : varintMB packet data_start = .ok c ds) :
    (PacketInflater.inflate zprocess (some t) packet data_start =
        .error .smallCompression) ↔ (ds ≠ 0 ∧ ds < t) := by
  unfold PacketInflater.inflate
  rw [hv]
  dsimp only
  by_cases h0 : ds = 0
  · rw [if_pos h0]
    simp [h0]
  · rw [if_neg h0]
    by_cases hlt : ds < t
    · rw [if_pos hlt]
      simp [h0, hlt]
    · rw [if_neg hlt]
      constructor
      · intro hEq
        exfalso
        rcases hsp : packet.split_to c with _ | pr
        · rw [hsp] at hEq
          simp at hEq
        · obtain ⟨hd, dt⟩ := pr
          rw [hsp] at hEq
          dsimp only at hEq
          cases hz : zprocess dt with
          | error e =>
            rw [hz] at hEq
            simp at hEq
          | ok inf =>
            rw [hz] at hEq
            simp at hEq
      · rintro ⟨-, h2⟩
        exact absurd h2 hlt

theorem inflate_smallCompression_iff_witness :
    (PacketInflater.inflate (fun _ => Except.ok ⟨[]⟩) (some 64)
        ⟨[[0xff, 0xff, 0xff, 0xff, 0x0f]]⟩ ⟨0, 0⟩ = .error .smallCompression)
      ↔ ((-1 : Int) ≠ 0 ∧ (-1 : Int) < 64) :=
  inflate_smallCompression_iff (fun _ => Except.ok ⟨[]⟩) 64
    ⟨[[0xff, 0xff, 0xff, 0xff, 0x0f]]⟩ ⟨0, 0⟩ ⟨1, 0⟩ (-1)
    (by
      simp [varintMB, varintMBLoop, viewReadU8, Cursor.has_atleast,
        hasAtleastLoop, Cursor.advance, Cursor.true_up, trueUpGo, i32ofNat]
      decide)

/-- C5 counterexample: with threshold 64 and a frame whose
`decompressed_size` varint decodes to −1, `inflate` fails with
`SmallCompression` although `0 < −1 < 64` does not hold — the code tests
`decompressed_size < threshold` for any nonzero value, negative ones
included. -/
theorem inflate_smallCompression_counterexample :
    varintMB ⟨[[0xff, 0xff, 0xff, 0xff, 0x0f]]⟩ ⟨0, 0⟩ =
        .ok ⟨1, 0⟩ (-1)
  ∧ PacketInflater.inflate (fun _ => Except.ok ⟨[]⟩) (some 64)
      ⟨[[0xff, 0xff, 0xff, 0xff, 0x0f]]⟩ ⟨0, 0⟩ = .error .smallCompression
  ∧ ¬ (0 < (-1 : Int) ∧ (-1 : Int) < 64) := by
  have h1 : varintMB ⟨[[0xff, 0xff, 0xff, 0xff, 0x0f]]⟩ ⟨0, 0⟩ =
      .ok ⟨1, 0⟩ (-1) := by
    simp [varintMB, varintMBLoop, viewReadU8, Cursor.has_atleast,
      hasAtleastLoop, Cursor.advance, Cursor.true_up, trueUpGo, i32ofNat]
    decide
  refine ⟨h1, ?_, by decide⟩
  unfold PacketInflater.inflate
  rw [h1]
  dsimp only
  rw [if_neg (by decide : ¬ (-1 : Int) = 0), if_pos (by decide : (-1 : Int) < 64)]

/-- C9: a `Cryptor` on which `start_crypto` was never called (so its
context is still `None`, as both constructors leave it) passes every
byte slice through unchanged, whatever the AES primitive would do. -/
theorem cryptor_passthrough
    (aes : List Nat → CryptMode → List Nat → List Nat) (mode : CryptMode)
    (data : List Nat) :
    Cryptor.process aes ⟨none, mode⟩ data = data :=
  rfl

/-- C7 (amended): every slice carved out by `allocate_global` yields a
`Part` whose data window covers exactly `2 ^ buf_size` bytes — the
refcount lives in the separate heap-boxed `Page` structure, not in the
slab's last four bytes. -/
theorem part_usable_region (s : PoolSettings) (sl : Slice)
    (h : sl ∈ allocateGlobalSlices s) :
    (Part.new sl).data.len = 2 ^ s.buf_size := by
  unfold allocateGlobalSlices at h
  obtain ⟨itr, -, rfl⟩ := List.mem_map.mp h
  unfold Part.new
  simp [Nat.shiftLeft_eq]

theorem part_usable_region_witness :
    (Part.new ((allocateGlobalSlices ⟨12, 32, 2, 1⟩).headD ⟨0, 0⟩)).data.len =
      2 ^ 12 :=
  part_usable_region ⟨12, 32, 2, 1⟩ _ (by decide)

/-- C7 counterexample: with the smoke test's `buf_size = 12`, the Part
built from the page's first slice covers 4096 bytes, not
`2 ^ 12 − 4 = 4092`. -/
theorem part_usable_region_counterexample :
    (Part.new ((allocateGlobalSlices ⟨12, 32, 64, 1⟩).headD ⟨0, 0⟩)).data.len =
        4096
  ∧ (4096 : Nat) ≠ 2 ^ 12 - 4 := by
  exact ⟨by decide, by decide⟩

/-- C6: evaluating the ring at the failing input.  Open a frame on a
fresh ring and append the element 42: the element is written into slot 1,
but the stored header's `next` stays at `start + 1` (the `header.next += 1`
in `append` mutates a local copy of the `Copy` header, not the slot), so
iterating the frame yields no elements instead of `[42]`. -/
theorem framedRing_append_loses_element :
    ringScenario2.ring 1 = some (.element 42)
  ∧ RingFrame.headerNext ringScenario2 ringScenario1.2 =
      ringScenario1.2.start + 1
  ∧ RingFrame.iterList ringScenario2 ringScenario1.2 = ([] : List Nat) :=
  ⟨rfl, rfl, rfl⟩

end Blockrouter
